import Mathlib

/-!
Verification of the manifest-resolution core of the pixi `Project` facade
(`src/project/mod.rs`): target resolution, dependency aggregation with
insertion-order-preserving maps, task registry queries, activation-script
resolution, manifest loading, and the lazily initialized package database.

Maps with insertion order (Rust `indexmap::IndexMap`) are embedded as
association lists with the library's insert semantics: inserting an existing
key replaces the value in place, a new key is appended at the end.
Filesystem and parsing collaborators are passed in as explicit environments.
-/

set_option autoImplicit false

namespace Pixi

/-- Supported target platforms (`rattler_conda_types::Platform`), restricted
to the variants the project's tests exercise. -/
inductive Platform where
  | Linux64
  | Win64
  | Osx64
  | OsxArm64
deriving DecidableEq, Repr

/-- Modelled from the spec: `Platform::current()` detects the current host
platform; the detection itself is external, so it is embedded as a fixed
constant. -/
def Platform.current : Platform := Platform.Linux64

/-- What kind of dependency spec do we have (`SpecType` in the source). -/
inductive SpecType where
  | Host
  | Build
  | Run
deriving DecidableEq, Repr

/-- Convert to a name used in the manifest (`SpecType::name`). -/
def SpecType.name : SpecType → String
  | SpecType.Host => "host-dependencies"
  | SpecType.Build => "build-dependencies"
  | SpecType.Run => "dependencies"

/-- An insertion-ordered map (`indexmap::IndexMap`), embedded as the list of
its entries in iteration order. -/
structure IndexMap (α β : Type) where
  entries : List (α × β)
deriving DecidableEq, Repr

/-- Entry-list insertion with `IndexMap::insert` semantics: if an equivalent
key already exists, the key keeps its place in the order and its value is
updated; otherwise the new entry is appended at the end. -/
def insertList {α β : Type} [DecidableEq α] : List (α × β) → α → β → List (α × β)
  | [], k, v => [(k, v)]
  | e :: t, k, v => if e.1 = k then (e.1, v) :: t else e :: insertList t k v

/-- Entry-list lookup: the value of the first entry with key `k`, if any. -/
def findList {α β : Type} [DecidableEq α] (l : List (α × β)) (k : α) : Option β :=
  (l.find? (fun e => decide (e.1 = k))).map Prod.snd

/-- Entry-list lookup from the right: the value of the last entry with key
`k`, if any. -/
def lookupLast {α β : Type} [DecidableEq α] : List (α × β) → α → Option β
  | [], _ => none
  | e :: t, k =>
    match lookupLast t k with
    | some v => some v
    | none => if e.1 = k then some e.2 else none

/-- Entry-list extension: insert every pair of `l` in order into `acc`. -/
def extendList {α β : Type} [DecidableEq α] (acc : List (α × β)) (l : List (α × β)) :
    List (α × β) :=
  l.foldl (fun a e => insertList a e.1 e.2) acc

/-- Left-biased choice on options. -/
def orOpt {β : Type} (a b : Option β) : Option β :=
  match a with
  | some v => some v
  | none => b

/-- The position of the first occurrence of `k` in a key list. -/
def keyIdx {α : Type} [DecidableEq α] (k : α) : List α → Nat
  | [] => 0
  | a :: t => if a = k then 0 else keyIdx k t + 1

namespace IndexMap

variable {α β : Type} [DecidableEq α]

/-- The keys in iteration order. -/
def keys (m : IndexMap α β) : List α := m.entries.map Prod.fst

/-- `IndexMap::insert`: replace in place or append at the end. -/
def insert (m : IndexMap α β) (k : α) (v : β) : IndexMap α β :=
  ⟨insertList m.entries k v⟩

/-- `IndexMap::get`: the value stored for key `k`, if any. -/
def find (m : IndexMap α β) (k : α) : Option β :=
  findList m.entries k

/-- `Extend for IndexMap`: insert every pair of `l` in order. -/
def extendWith (m : IndexMap α β) (l : List (α × β)) : IndexMap α β :=
  ⟨extendList m.entries l⟩

/-- `FromIterator for IndexMap` (what `.collect()` uses): extend the empty map. -/
def ofList (l : List (α × β)) : IndexMap α β :=
  ⟨extendList [] l⟩

end IndexMap

/-- A task definition: its command is irrelevant here, only the list of task
names it depends on (`Task::depends_on`). -/
structure Task where
  depends_on : List String
deriving DecidableEq, Repr

/-- The `activation` table of a target: an optional list of script paths
relative to the project root. -/
structure Activation where
  scripts : Option (List String)
deriving DecidableEq, Repr

/-- One configuration layer (`Target` in the manifest module): per-kind
dependency maps, an optional activation block, and an optional task table. -/
structure Target where
  dependencies : SpecType → Option (IndexMap String String)
  activation : Option Activation
  tasks : Option (List (String × Task))

/-- Modelled from the spec: the manifest module's `Targets` (not under `src/`)
owns one default target plus at most one override target per platform. -/
structure Targets where
  default_target : Target
  overrides : Platform → Option Target

/-- Modelled from the spec: the manifest module's target resolver (not under
`src/`): for a requested platform the sequence is the platform override (when
present) followed by the default target, most specific first; with no
requested platform or no override it is just the default target. -/
def Targets.resolve (ts : Targets) (platform : Option Platform) : List Target :=
  match platform with
  | none => [ts.default_target]
  | some p =>
    match ts.overrides p with
    | some t => [t, ts.default_target]
    | none => [ts.default_target]

/-- A feature bundles its targets; only the default feature is relevant here. -/
structure Feature where
  targets : Targets

/-- The manifest, reduced to what the `Project` facade reads: its default
feature (`Manifest::default_feature`). -/
structure Manifest where
  default_feature : Feature

/-- Modelled from the spec: `Manifest::tasks` (not under `src/`) resolves the
effective task table with override semantics: traverse the resolver sequence
most specific first and keep only the first definition seen for each name. -/
def Manifest.tasks (m : Manifest) (platform : Option Platform) : List (String × Task) :=
  (m.default_feature.targets.resolve platform).foldl
    (fun acc t =>
      (t.tasks.getD []).foldl
        (fun acc2 e => if acc2.any (fun x => decide (x.1 = e.1)) then acc2 else acc2 ++ [e])
        acc)
    []

/-- An opaque handle to the PyPI package database (`Arc<PackageDb>`); two
handles are the same database iff they are equal. -/
abbrev PackageDb := Nat

/-- The pixi project: the root folder, the once-cell for the PyPI package
database (`OnceCell<Arc<PackageDb>>`, embedded as an `Option`), and the
manifest. Paths are embedded as lists of components. -/
structure Project where
  root : List String
  package_db : Option PackageDb
  manifest : Manifest

/-- Modelled from the spec: the fixed manifest filename (`consts::PROJECT_MANIFEST`,
not under `src/`). -/
def PROJECT_MANIFEST : String := "pixi.toml"

/-- The filesystem collaborator for `activation_scripts`: which paths exist. -/
structure FsEnv where
  path_exists : List String → Bool

/-- The collaborators of `Project::load`: path canonicalization
(`dunce::canonicalize`), file reading (`fs::read_to_string`) and manifest
parsing (`Manifest::from_str`), each fallible. -/
structure LoadEnv where
  canonicalize : List String → Option (List String)
  read_to_string : List String → Except String String
  parse_manifest : List String → String → Except String Manifest

/-- `Path::parent`: drop the file name; `none` for the empty path. -/
def pathParent (p : List String) : Option (List String) :=
  match p with
  | [] => none
  | _ :: _ => some p.dropLast

/-- The context `load` wraps read and parse failures with
(`wrap_err_with`): the manifest name and the root it was read from. -/
def wrapParseErr (root : List String) (e : String) : String :=
  "failed to parse " ++ PROJECT_MANIFEST ++ " from " ++ String.intercalate "/" root ++ ": " ++ e

namespace Project

/-- `Project::dependencies`: resolve the targets for the platform, reverse so
the most specific target is last, concatenate each target's dependency map
for `kind`, and collect into an `IndexMap`. -/
def dependencies (p : Project) (platform : Platform) (kind : SpecType) :
    IndexMap String String :=
  IndexMap.ofList
    (((p.manifest.default_feature.targets.resolve (some platform)).reverse).flatMap
      (fun t =>
        match t.dependencies kind with
        | some m => m.entries
        | none => []))

/-- `Project::all_dependencies`: the run, host and build dependency sets
combined, extending in that order. -/
def all_dependencies (p : Project) (platform : Platform) : IndexMap String String :=
  ((p.dependencies platform SpecType.Run).extendWith
      (p.dependencies platform SpecType.Host).entries).extendWith
    (p.dependencies platform SpecType.Build).entries

/-- `Project::task_names_depending_on`: resolve the task table for the current
host platform, remove `name`, and if it was present return the remaining
names whose depends-on list contains `name`; otherwise the empty list. -/
def task_names_depending_on (p : Project) (name : String) : List String :=
  let tasks := p.manifest.tasks (some Platform.current)
  let remaining := tasks.filter (fun e => decide (e.1 ≠ name))
  if tasks.any (fun e => decide (e.1 = name)) then
    (remaining.filter (fun e => name ∈ e.2.depends_on)).map Prod.fst
  else
    []

/-- `Project::activation_scripts`: pick the most specific target with an
activation block, join each declared script against the project root, keep
the paths that exist (collecting the missing ones only for a warning), and
return the kept paths. -/
def activation_scripts (env : FsEnv) (p : Project) (platform : Platform) :
    Except String (List (List String)) :=
  let feature := p.manifest.default_feature
  let activation :=
    ((feature.targets.resolve (some platform)).filterMap (fun t => t.activation)).head?
  let all_scripts :=
    match activation with
    | some a => a.scripts.getD []
    | none => []
  let folded :=
    all_scripts.foldl
      (fun acc script_name =>
        if env.path_exists (p.root ++ [script_name]) then
          (acc.1 ++ [p.root ++ [script_name]], acc.2)
        else
          (acc.1, acc.2 ++ [script_name]))
      (([], []) : List (List String) × List String)
  Except.ok folded.1

/-- `Project::pypi_package_db`: `OnceCell::get_or_try_init` over the stored
cell; `init` stands for the construction closure (client, index URLs, cache
directory). Returns the result together with the project state afterwards. -/
def pypi_package_db (p : Project) (init : Except String PackageDb) :
    Except String PackageDb × Project :=
  match p.package_db with
  | some db => (Except.ok db, p)
  | none =>
    match init with
    | Except.ok db => (Except.ok db, { p with package_db := some db })
    | Except.error e => (Except.error e, p)

/-- `Project::load`: canonicalize the path, require the file name to be the
fixed manifest filename, take the parent as project root, then read and parse
the manifest, wrapping read/parse failures with the manifest location. -/
def load (env : LoadEnv) (manifest_path : List String) : Except String Project :=
  match env.canonicalize manifest_path with
  | none => Except.error "canonicalize failed"
  | some full_path =>
    if full_path.getLast? ≠ some PROJECT_MANIFEST then
      Except.error ("the manifest-path must point to a " ++ PROJECT_MANIFEST ++ " file")
    else
      match pathParent full_path with
      | none => Except.error "can not find parent"
      | some root =>
        match env.read_to_string manifest_path with
        | Except.error e => Except.error (wrapParseErr root e)
        | Except.ok content =>
          match env.parse_manifest root content with
          | Except.error e => Except.error (wrapParseErr root e)
          | Except.ok manifest =>
            Except.ok { root := root, package_db := none, manifest := manifest }

end Project

/-! ### Concrete fixtures, mirroring the manifests of the repository's tests -/

/-- The default target of the example project: run, host and build
dependencies, a default activation block and a task table. -/
def exDefaultTarget : Target where
  dependencies := fun k =>
    match k with
    | SpecType.Run => some ⟨[("foo", "==1.0"), ("bar", "==2.0")]⟩
    | SpecType.Host => some ⟨[("libc", "==2.12")]⟩
    | SpecType.Build => some ⟨[("cmake", "==3.0")]⟩
  activation := some ⟨some ["default_a.sh", "default_b.sh"]⟩
  tasks := some [("build", ⟨[]⟩), ("test", ⟨["build"]⟩), ("lint", ⟨[]⟩)]

/-- The `linux-64` override target of the example project: it overrides `foo`
in two kinds, adds new packages, and has its own activation block. -/
def exLinuxTarget : Target where
  dependencies := fun k =>
    match k with
    | SpecType.Run => some ⟨[("wolflib", "==1.0"), ("foo", "==2.0")]⟩
    | SpecType.Host => some ⟨[("banksy", "==1.0"), ("foo", "==7.7")]⟩
    | SpecType.Build => some ⟨[("baz", "==1.0")]⟩
  activation := some ⟨some ["linux.sh"]⟩
  tasks := none

/-- The example targets: a default target plus a `linux-64` override. -/
def exTargets : Targets where
  default_target := exDefaultTarget
  overrides := fun p =>
    match p with
    | Platform.Linux64 => some exLinuxTarget
    | _ => none

/-- The example project wrapping the example targets. -/
def exProject : Project where
  root := ["", "proj"]
  package_db := none
  manifest := ⟨⟨exTargets⟩⟩

/-- A filesystem in which only the linux activation script exists. -/
def exFsEnv : FsEnv where
  path_exists := fun q => decide (q = ["", "proj", "linux.sh"])

/-- Load collaborators whose reads always fail: canonicalization is the
identity, reading reports an I/O error, and parsing is never reached. -/
def exLoadEnvReadFail : LoadEnv where
  canonicalize := fun q => some q
  read_to_string := fun _ => Except.error "permission denied"
  parse_manifest := fun _ _ => Except.error "unreachable"

/-- Load collaborators whose reads succeed and whose parses fail. -/
def exLoadEnvParseFail : LoadEnv where
  canonicalize := fun q => some q
  read_to_string := fun _ => Except.ok "not a manifest"
  parse_manifest := fun _ _ => Except.error "expected a table"

/-! ### Lemmas about the entry-list operations -/

section ListLemmas

variable {α β : Type} [DecidableEq α]

theorem keys_insertList_of_mem (l : List (α × β)) (k : α) (v : β)
    (h : k ∈ l.map Prod.fst) :
    (insertList l k v).map Prod.fst = l.map Prod.fst := by
  induction l with
  | nil => simp at h
  | cons e t ih =>
    by_cases hk : e.1 = k
    · simp [insertList, hk]
    · simp only [List.map_cons, List.mem_cons] at h
      rcases h with h1 | h1
      · exact absurd h1.symm hk
      · simp [insertList, hk, ih h1]

theorem keys_insertList_of_not_mem (l : List (α × β)) (k : α) (v : β)
    (h : k ∉ l.map Prod.fst) :
    (insertList l k v).map Prod.fst = l.map Prod.fst ++ [k] := by
  induction l with
  | nil => simp [insertList]
  | cons e t ih =>
    simp only [List.map_cons, List.mem_cons] at h
    push_neg at h
    have hk : e.1 ≠ k := fun he => h.1 he.symm
    simp [insertList, hk, ih h.2]

theorem insertList_of_not_mem (l : List (α × β)) (k : α) (v : β)
    (h : k ∉ l.map Prod.fst) :
    insertList l k v = l ++ [(k, v)] := by
  induction l with
  | nil => simp [insertList]
  | cons e t ih =>
    simp only [List.map_cons, List.mem_cons] at h
    push_neg at h
    have hk : e.1 ≠ k := fun he => h.1 he.symm
    simp [insertList, hk, ih h.2]

theorem findList_insertList_self (l : List (α × β)) (k : α) (v : β) :
    findList (insertList l k v) k = some v := by
  induction l with
  | nil => simp [insertList, findList]
  | cons e t ih =>
    by_cases hk : e.1 = k
    · simp [insertList, hk, findList]
    · simpa [insertList, hk, findList] using ih

theorem findList_insertList_ne (l : List (α × β)) (k k' : α) (v : β)
    (h : k' ≠ k) :
    findList (insertList l k v) k' = findList l k' := by
  have hkk' : ¬(k = k') := fun he => h he.symm
  induction l with
  | nil => simp [insertList, findList, hkk']
  | cons e t ih =>
    by_cases hk : e.1 = k
    · have hk' : ¬(e.1 = k') := fun he => h (he.symm.trans hk)
      simp [insertList, hk, findList, hk', hkk']
    · by_cases hk' : e.1 = k'
      · simp [insertList, hk, findList, hk', h]
      · simpa [insertList, hk, findList, hk'] using ih

theorem nodup_keys_insertList (l : List (α × β)) (k : α) (v : β)
    (h : (l.map Prod.fst).Nodup) :
    ((insertList l k v).map Prod.fst).Nodup := by
  by_cases hk : k ∈ l.map Prod.fst
  · rw [keys_insertList_of_mem l k v hk]; exact h
  · rw [keys_insertList_of_not_mem l k v hk]
    simp [List.nodup_append, h, hk]

theorem extendList_nil (acc : List (α × β)) : extendList acc [] = acc := rfl

theorem extendList_cons (acc : List (α × β)) (e : α × β) (t : List (α × β)) :
    extendList acc (e :: t) = extendList (insertList acc e.1 e.2) t := rfl

theorem extendList_append (acc l1 l2 : List (α × β)) :
    extendList acc (l1 ++ l2) = extendList (extendList acc l1) l2 := by
  simp [extendList, List.foldl_append]

theorem keys_extendList_prefix (acc l : List (α × β)) :
    ∃ ext, (extendList acc l).map Prod.fst = acc.map Prod.fst ++ ext := by
  induction l generalizing acc with
  | nil => exact ⟨[], by simp [extendList]⟩
  | cons e t ih =>
    rw [extendList_cons]
    rcases ih (insertList acc e.1 e.2) with ⟨ext, hext⟩
    by_cases hk : e.1 ∈ acc.map Prod.fst
    · exact ⟨ext, by rw [hext, keys_insertList_of_mem _ _ _ hk]⟩
    · exact ⟨[e.1] ++ ext, by
        rw [hext, keys_insertList_of_not_mem _ _ _ hk, List.append_assoc]⟩

theorem findList_extendList (acc l : List (α × β)) (k : α) :
    findList (extendList acc l) k = orOpt (lookupLast l k) (findList acc k) := by
  induction l generalizing acc with
  | nil => simp [extendList, lookupLast, orOpt]
  | cons e t ih =>
    rw [extendList_cons, ih]
    cases hL : lookupLast t k with
    | some v => simp [lookupLast, hL, orOpt]
    | none =>
      by_cases hk : e.1 = k
      · subst hk
        simp [lookupLast, hL, orOpt, findList_insertList_self]
      · have hne : k ≠ e.1 := fun he => hk he.symm
        simp [lookupLast, hL, orOpt, hk, findList_insertList_ne _ _ _ _ hne]

theorem nodup_keys_extendList (acc l : List (α × β))
    (h : (acc.map Prod.fst).Nodup) :
    ((extendList acc l).map Prod.fst).Nodup := by
  induction l generalizing acc with
  | nil => exact h
  | cons e t ih => exact ih _ (nodup_keys_insertList _ _ _ h)

theorem extendList_disjoint (acc l : List (α × β))
    (hd : ∀ k ∈ l.map Prod.fst, k ∉ acc.map Prod.fst)
    (hn : (l.map Prod.fst).Nodup) :
    extendList acc l = acc ++ l := by
  induction l generalizing acc with
  | nil => simp [extendList]
  | cons e t ih =>
    rw [extendList_cons]
    have he : e.1 ∉ acc.map Prod.fst := hd e.1 (by simp)
    rw [insertList_of_not_mem _ _ _ he]
    have hee : acc ++ [(e.1, e.2)] = acc ++ [e] := by simp
    rw [hee]
    simp only [List.map_cons, List.nodup_cons] at hn
    have hd' : ∀ k ∈ t.map Prod.fst, k ∉ (acc ++ [e]).map Prod.fst := by
      intro k hkt
      simp only [List.map_append, List.mem_append, List.map_cons]
      push_neg
      refine ⟨hd k (by simp [hkt]), ?_⟩
      simp only [List.map_nil, List.mem_cons, List.not_mem_nil]
      rintro (hke | hke)
      · exact hn.1 (hke ▸ hkt)
      · exact hke
    rw [ih _ hd' hn.2, List.append_assoc]
    rfl

theorem lookupLast_eq_none (l : List (α × β)) (k : α)
    (h : k ∉ l.map Prod.fst) : lookupLast l k = none := by
  induction l with
  | nil => rfl
  | cons e t ih =>
    simp only [List.map_cons, List.mem_cons] at h
    push_neg at h
    have hk : e.1 ≠ k := fun he => h.1 he.symm
    simp [lookupLast, ih h.2, hk]

theorem findList_eq_none (l : List (α × β)) (k : α)
    (h : k ∉ l.map Prod.fst) : findList l k = none := by
  induction l with
  | nil => rfl
  | cons e t ih =>
    simp only [List.map_cons, List.mem_cons] at h
    push_neg at h
    have hk : e.1 ≠ k := fun he => h.1 he.symm
    rw [findList, List.find?_cons_of_neg _ (by simp [hk])]
    exact ih h.2

theorem lookupLast_eq_findList (l : List (α × β)) (k : α)
    (hn : (l.map Prod.fst).Nodup) :
    lookupLast l k = findList l k := by
  induction l with
  | nil => rfl
  | cons e t ih =>
    simp only [List.map_cons, List.nodup_cons] at hn
    by_cases hk : e.1 = k
    · have hkt : k ∉ t.map Prod.fst := hk ▸ hn.1
      simp [lookupLast, findList, hk, lookupLast_eq_none t k hkt]
    · rw [lookupLast, ih hn.2]
      have hr : findList (e :: t) k = findList t k := by
        rw [findList, List.find?_cons_of_neg _ (by simp [hk])]
        rfl
      rw [hr]
      cases h : findList t k with
      | some v => rfl
      | none => simp [hk]

theorem findList_mem_of_some (l : List (α × β)) (k : α) (v : β)
    (h : findList l k = some v) : (k, v) ∈ l := by
  induction l with
  | nil => simp [findList] at h
  | cons e t ih =>
    by_cases hk : e.1 = k
    · rw [findList, List.find?_cons_of_pos _ (by simp [hk])] at h
      have h2 : e.2 = v := by simpa using h
      have he : e = (k, v) := Prod.ext_iff.mpr ⟨hk, h2⟩
      rw [← he]
      exact List.mem_cons_self e t
    · rw [findList, List.find?_cons_of_neg _ (by simp [hk])] at h
      exact List.mem_cons_of_mem _ (ih h)

theorem extendList_nil_acc (l : List (α × β)) (hn : (l.map Prod.fst).Nodup) :
    extendList [] l = l := by
  simpa using extendList_disjoint [] l (by simp) hn

theorem findList_some_of_mem (l : List (α × β)) (k : α)
    (h : k ∈ l.map Prod.fst) : ∃ v, findList l k = some v := by
  induction l with
  | nil => simp at h
  | cons e t ih =>
    by_cases hk : e.1 = k
    · exact ⟨e.2, by rw [findList, List.find?_cons_of_pos _ (by simp [hk])]; rfl⟩
    · simp only [List.map_cons, List.mem_cons] at h
      rcases h with h1 | h1
      · exact absurd h1.symm hk
      · obtain ⟨v, hv⟩ := ih h1
        exact ⟨v, by rw [findList, List.find?_cons_of_neg _ (by simp [hk])]; exact hv⟩

theorem keyIdx_append_left (k : α) (l1 l2 : List α) (h : k ∈ l1) :
    keyIdx k (l1 ++ l2) = keyIdx k l1 := by
  induction l1 with
  | nil => simp at h
  | cons a t ih =>
    by_cases ha : a = k
    · simp [keyIdx, ha]
    · have hkt : k ∈ t := by
        rcases List.mem_cons.mp h with h1 | h1
        · exact absurd h1.symm ha
        · exact h1
      simp [keyIdx, ha, ih hkt]

end ListLemmas

/-! ### Lemmas about the resolver and the project operations -/

theorem resolve_of_override (ts : Targets) (pl : Platform) (ov : Target)
    (h : ts.overrides pl = some ov) :
    ts.resolve (some pl) = [ov, ts.default_target] := by
  simp [Targets.resolve, h]

theorem resolve_of_no_override (ts : Targets) (pl : Platform)
    (h : ts.overrides pl = none) :
    ts.resolve (some pl) = [ts.default_target] := by
  simp [Targets.resolve, h]

theorem dependencies_entries_no_override (p : Project) (pl : Platform) (kind : SpecType)
    (hov : p.manifest.default_feature.targets.overrides pl = none) :
    p.dependencies pl kind =
      IndexMap.ofList
        (match p.manifest.default_feature.targets.default_target.dependencies kind with
          | some m => m.entries
          | none => []) := by
  rw [Project.dependencies, resolve_of_no_override _ _ hov]
  simp

theorem dependencies_entries_override (p : Project) (pl : Platform) (kind : SpecType)
    (ov : Target)
    (hov : p.manifest.default_feature.targets.overrides pl = some ov) :
    p.dependencies pl kind =
      IndexMap.ofList
        ((match p.manifest.default_feature.targets.default_target.dependencies kind with
          | some m => m.entries
          | none => []) ++
          (match ov.dependencies kind with
          | some m => m.entries
          | none => [])) := by
  rw [Project.dependencies, resolve_of_override _ _ _ hov]
  simp

theorem dependencies_keys_nodup (p : Project) (pl : Platform) (kind : SpecType) :
    (p.dependencies pl kind).keys.Nodup := by
  rw [Project.dependencies]
  exact nodup_keys_extendList [] _ (by simp)

theorem foldl_partition_fst (pex : List String → Bool) (root : List String)
    (scripts : List String) (acc1 : List (List String)) (acc2 : List String) :
    (scripts.foldl
      (fun acc s =>
        if pex (root ++ [s]) then (acc.1 ++ [root ++ [s]], acc.2)
        else (acc.1, acc.2 ++ [s]))
      (acc1, acc2)).1
      = acc1 ++ (scripts.map (fun s => root ++ [s])).filter pex := by
  induction scripts generalizing acc1 acc2 with
  | nil => simp
  | cons s t ih =>
    by_cases h : pex (root ++ [s]) = true
    · simp only [List.foldl_cons, h, if_true, List.map_cons, List.filter_cons, ih]
      simp [h]
    · simp only [List.foldl_cons, h, if_false, List.map_cons, List.filter_cons, ih]
      simp [h]

theorem pathParent_eq_dropLast (l : List String) (h : l ≠ []) :
    pathParent l = some l.dropLast := by
  cases l with
  | nil => exact absurd rfl h
  | cons a t => rfl

/-! ### The claims -/

/-- C3: for a platform with no override target in the default feature,
`dependencies(platform, kind)` is exactly the default target's dependency
map for that kind: same keys, same iteration order, same values. -/
theorem dependencies_no_override_exact (p : Project) (pl : Platform) (kind : SpecType)
    (dm : IndexMap String String)
    (hov : p.manifest.default_feature.targets.overrides pl = none)
    (hdm : p.manifest.default_feature.targets.default_target.dependencies kind = some dm)
    (hndm : dm.keys.Nodup) :
    p.dependencies pl kind = dm := by
  simp only [dependencies_entries_no_override p pl kind hov, hdm]
  show (⟨extendList [] dm.entries⟩ : IndexMap String String) = dm
  rw [extendList_nil_acc dm.entries hndm]

/-- Witness for C3: on the example project, `win-64` has no override, and the
run dependencies are exactly the default target's run map. -/
theorem dependencies_no_override_exact_witness :
    exProject.dependencies Platform.Win64 SpecType.Run =
      ⟨[("foo", "==1.0"), ("bar", "==2.0")]⟩ :=
  dependencies_no_override_exact exProject Platform.Win64 SpecType.Run
    ⟨[("foo", "==1.0"), ("bar", "==2.0")]⟩ rfl rfl (by decide)

/-- C9: resolving `all_dependencies(platform)` twice with no manifest
mutation in between yields identical ordered maps, and the result depends
only on the manifest (the embedding is a pure function of the project, so
neither call changes the project's state). -/
theorem all_dependencies_idempotent (p q : Project) (pl : Platform)
    (h : q.manifest = p.manifest) :
    p.all_dependencies pl = p.all_dependencies pl ∧
    q.all_dependencies pl = p.all_dependencies pl := by
  refine ⟨rfl, ?_⟩
  simp [Project.all_dependencies, Project.dependencies, h]

/-- Witness for C9: a project with the same manifest but a different
package-database cell resolves to the same ordered map. -/
theorem all_dependencies_idempotent_witness :
    ({ exProject with package_db := some (3 : Nat) } : Project).all_dependencies
        Platform.Linux64 =
      exProject.all_dependencies Platform.Linux64 :=
  (all_dependencies_idempotent exProject
    { exProject with package_db := some (3 : Nat) } Platform.Linux64 rfl).2

/-- C10: `activation_scripts` never returns an error: every execution path
ends in `Except.ok`, with a possibly empty list. -/
theorem activation_scripts_total (env : FsEnv) (p : Project) (pl : Platform) :
    ∃ paths, p.activation_scripts env pl = Except.ok paths :=
  ⟨_, rfl⟩

/-- C5: `activation_scripts` joins each declared script against the project
root, keeps in declared order exactly the joined paths that exist on the
filesystem, drops the rest, and succeeds. -/
theorem activation_scripts_existing_in_order (env : FsEnv) (p : Project) (pl : Platform) :
    p.activation_scripts env pl =
      Except.ok
        (((((p.manifest.default_feature.targets.resolve (some pl)).filterMap
                (fun t => t.activation)).head?.elim []
              (fun a => a.scripts.getD [])).map
            (fun s => p.root ++ [s])).filter env.path_exists) := by
  cases hhd : ((p.manifest.default_feature.targets.resolve (some pl)).filterMap
      (fun t => t.activation)).head? with
  | some a =>
    simp only [Project.activation_scripts, hhd, Option.elim]
    rw [foldl_partition_fst]
    simp
  | none =>
    simp only [Project.activation_scripts, hhd, Option.elim]
    rw [foldl_partition_fst]
    simp

/-- C4: `activation_scripts` takes its scripts from the first target in the
resolver sequence whose activation block is present; when the platform
override has one, the result is resolved from the override's scripts alone
and the default target's scripts never appear. -/
theorem activation_scripts_no_merge (env : FsEnv) (p : Project) (pl : Platform)
    (ov : Target) (a : Activation)
    (hov : p.manifest.default_feature.targets.overrides pl = some ov)
    (ha : ov.activation = some a) :
    p.activation_scripts env pl =
      Except.ok
        (((a.scripts.getD []).map (fun s => p.root ++ [s])).filter env.path_exists) := by
  simp only [Project.activation_scripts, resolve_of_override _ _ _ hov,
    List.filterMap_cons, ha, List.head?_cons]
  rw [foldl_partition_fst]
  simp

/-- C1: `dependencies(platform, kind)` folds the resolver sequence from
least to most specific with overwrite-preserving-first-position semantics:
a name present in both the default and the override map keeps its position
from the default map while carrying the override map's value, and override
keys are only ever appended after the default keys. -/
theorem dependencies_override_position (p : Project) (pl : Platform) (kind : SpecType)
    (ov : Target) (dm om : IndexMap String String) (name : String)
    (hov : p.manifest.default_feature.targets.overrides pl = some ov)
    (hdm : p.manifest.default_feature.targets.default_target.dependencies kind = some dm)
    (hom : ov.dependencies kind = some om)
    (hndm : dm.keys.Nodup)
    (hnom : om.keys.Nodup)
    (hmemd : name ∈ dm.keys)
    (hmemo : name ∈ om.keys) :
    keyIdx name (p.dependencies pl kind).keys = keyIdx name dm.keys ∧
    (p.dependencies pl kind).find name = om.find name ∧
    ∃ ext, (p.dependencies pl kind).keys = dm.keys ++ ext := by
  have hred : p.dependencies pl kind = ⟨extendList dm.entries om.entries⟩ := by
    simp only [dependencies_entries_override p pl kind ov hov, hdm, hom]
    show (⟨extendList [] (dm.entries ++ om.entries)⟩ : IndexMap String String) = _
    rw [extendList_append, extendList_nil_acc dm.entries hndm]
  obtain ⟨ext, hext⟩ := keys_extendList_prefix dm.entries om.entries
  refine ⟨?_, ?_, ⟨ext, ?_⟩⟩
  · rw [hred]
    show keyIdx name ((extendList dm.entries om.entries).map Prod.fst) =
      keyIdx name (dm.entries.map Prod.fst)
    rw [hext]
    exact keyIdx_append_left name _ ext hmemd
  · rw [hred]
    show findList (extendList dm.entries om.entries) name = findList om.entries name
    rw [findList_extendList, lookupLast_eq_findList om.entries name hnom]
    obtain ⟨v, hv⟩ := findList_some_of_mem om.entries name hmemo
    rw [hv]
    rfl
  · rw [hred]
    show (extendList dm.entries om.entries).map Prod.fst =
      dm.entries.map Prod.fst ++ ext
    exact hext

/-- Witness for C1: on the example project, `foo` sits at position 0 of the
default run map and carries the linux override's constraint. -/
theorem dependencies_override_position_witness :
    keyIdx "foo" (exProject.dependencies Platform.Linux64 SpecType.Run).keys = 0 ∧
    (exProject.dependencies Platform.Linux64 SpecType.Run).find "foo" =
      some "==2.0" := by
  have h := dependencies_override_position exProject Platform.Linux64 SpecType.Run
    exLinuxTarget ⟨[("foo", "==1.0"), ("bar", "==2.0")]⟩
    ⟨[("wolflib", "==1.0"), ("foo", "==2.0")]⟩ "foo"
    rfl rfl rfl (by decide) (by decide) (by decide) (by decide)
  refine ⟨h.1.trans (by decide), h.2.1.trans (by decide)⟩

/-- C2: `all_dependencies(platform)` merges the run, host and build maps in
that order with the overwrite-preserving-first-position rule: its keys have
no duplicates (exactly one entry survives per name), the run keys come
first in their original positions, and the surviving value for a name is
the build one if present, else the host one, else the run one. -/
theorem all_dependencies_kind_precedence (p : Project) (pl : Platform) (name : String) :
    (p.all_dependencies pl).keys.Nodup ∧
    (∃ ext, (p.all_dependencies pl).keys =
      (p.dependencies pl SpecType.Run).keys ++ ext) ∧
    (p.all_dependencies pl).find name =
      orOpt ((p.dependencies pl SpecType.Build).find name)
        (orOpt ((p.dependencies pl SpecType.Host).find name)
          ((p.dependencies pl SpecType.Run).find name)) := by
  refine ⟨?_, ?_, ?_⟩
  · show ((extendList
        (extendList (p.dependencies pl SpecType.Run).entries
          (p.dependencies pl SpecType.Host).entries)
        (p.dependencies pl SpecType.Build).entries).map Prod.fst).Nodup
    exact nodup_keys_extendList _ _
      (nodup_keys_extendList _ _ (dependencies_keys_nodup p pl SpecType.Run))
  · obtain ⟨e1, h1⟩ := keys_extendList_prefix
      (p.dependencies pl SpecType.Run).entries
      (p.dependencies pl SpecType.Host).entries
    obtain ⟨e2, h2⟩ := keys_extendList_prefix
      (extendList (p.dependencies pl SpecType.Run).entries
        (p.dependencies pl SpecType.Host).entries)
      (p.dependencies pl SpecType.Build).entries
    refine ⟨e1 ++ e2, ?_⟩
    show (extendList
        (extendList (p.dependencies pl SpecType.Run).entries
          (p.dependencies pl SpecType.Host).entries)
        (p.dependencies pl SpecType.Build).entries).map Prod.fst =
      (p.dependencies pl SpecType.Run).entries.map Prod.fst ++ (e1 ++ e2)
    rw [h2, h1, List.append_assoc]
  · show findList
        (extendList
          (extendList (p.dependencies pl SpecType.Run).entries
            (p.dependencies pl SpecType.Host).entries)
          (p.dependencies pl SpecType.Build).entries) name = _
    rw [findList_extendList, findList_extendList,
      lookupLast_eq_findList _ name (dependencies_keys_nodup p pl SpecType.Build),
      lookupLast_eq_findList _ name (dependencies_keys_nodup p pl SpecType.Host)]
    rfl

/-- C6: `task_names_depending_on(name)` works on the task map resolved for
the current host platform: it is empty when `name` is absent from that map,
it never contains `name` itself, and otherwise it contains exactly the
other task names of that map whose depends-on list contains `name`. -/
theorem task_names_depending_on_spec (p : Project) (name : String) :
    ((p.manifest.tasks (some Platform.current)).any
        (fun e => decide (e.1 = name)) = false →
      p.task_names_depending_on name = []) ∧
    name ∉ p.task_names_depending_on name ∧
    (∀ m, m ∈ p.task_names_depending_on name ↔
      ((p.manifest.tasks (some Platform.current)).any
          (fun e => decide (e.1 = name)) = true ∧
        m ≠ name ∧
        ∃ t, (m, t) ∈ p.manifest.tasks (some Platform.current) ∧
          name ∈ t.depends_on)) := by
  by_cases hany : (p.manifest.tasks (some Platform.current)).any
      (fun e => decide (e.1 = name)) = true
  · have hres : p.task_names_depending_on name =
        (((p.manifest.tasks (some Platform.current)).filter
            (fun e => decide (e.1 ≠ name))).filter
          (fun e => decide (name ∈ e.2.depends_on))).map Prod.fst := by
      simp only [Project.task_names_depending_on]
      rw [if_pos hany]
    refine ⟨fun hf => absurd hany (by simp [hf]), ?_, ?_⟩
    · rw [hres]
      intro hmem
      obtain ⟨e, he, hfst⟩ := List.mem_map.mp hmem
      obtain ⟨he1, -⟩ := List.mem_filter.mp he
      obtain ⟨-, hne⟩ := List.mem_filter.mp he1
      rw [decide_eq_true_eq] at hne
      exact hne hfst
    · intro m
      rw [hres]
      constructor
      · intro hmem
        obtain ⟨e, he, hfst⟩ := List.mem_map.mp hmem
        obtain ⟨he1, hdep⟩ := List.mem_filter.mp he
        obtain ⟨hM, hne⟩ := List.mem_filter.mp he1
        rw [decide_eq_true_eq] at hdep hne
        refine ⟨hany, fun hmn => hne (hfst.trans hmn), e.2, ?_, hdep⟩
        have hee : e = (m, e.2) := Prod.ext_iff.mpr ⟨hfst, rfl⟩
        rw [← hee]
        exact hM
      · rintro ⟨-, hne, t, htM, hdep⟩
        refine List.mem_map.mpr ⟨(m, t), ?_, rfl⟩
        refine List.mem_filter.mpr ⟨List.mem_filter.mpr ⟨htM, ?_⟩, ?_⟩
        · rw [decide_eq_true_eq]; exact hne
        · rw [decide_eq_true_eq]; exact hdep
  · have hres : p.task_names_depending_on name = [] := by
      simp only [Project.task_names_depending_on]
      rw [if_neg hany]
    refine ⟨fun _ => hres, ?_, ?_⟩
    · rw [hres]; simp
    · intro m
      rw [hres]
      constructor
      · intro hmem
        exact absurd hmem (List.not_mem_nil m)
      · rintro ⟨h1, -⟩
        exact absurd h1 hany

/-- Witness for C6: on the example project, the reverse-dependency query on
an absent task is empty, `test` depends on `build`, and `build` is not
reported as its own reverse dependency. -/
theorem task_names_depending_on_spec_witness :
    exProject.task_names_depending_on "ghost" = [] ∧
    "test" ∈ exProject.task_names_depending_on "build" ∧
    "build" ∉ exProject.task_names_depending_on "build" := by
  refine ⟨(task_names_depending_on_spec exProject "ghost").1 (by decide),
    ?_, (task_names_depending_on_spec exProject "build").2.1⟩
  exact ((task_names_depending_on_spec exProject "build").2.2 "test").mpr
    ⟨by decide, by decide, ⟨["build"]⟩, by decide, by decide⟩

/-- C7: `load` canonicalizes the path and fails whenever the canonical file
name is not the fixed manifest filename; on success the containing
directory is recorded as project root; read and parse failures come back
wrapped with the manifest location instead of a default manifest. -/
theorem load_checks (env : LoadEnv) (path full : List String)
    (hc : env.canonicalize path = some full) :
    (full.getLast? ≠ some PROJECT_MANIFEST →
      ∃ e, Project.load env path = Except.error e) ∧
    (∀ proj, Project.load env path = Except.ok proj →
      full.getLast? = some PROJECT_MANIFEST ∧ proj.root = full.dropLast) ∧
    (∀ root e, full.getLast? = some PROJECT_MANIFEST → pathParent full = some root →
      env.read_to_string path = Except.error e →
      Project.load env path = Except.error (wrapParseErr root e)) ∧
    (∀ root content e, full.getLast? = some PROJECT_MANIFEST →
      pathParent full = some root →
      env.read_to_string path = Except.ok content →
      env.parse_manifest root content = Except.error e →
      Project.load env path = Except.error (wrapParseErr root e)) := by
  refine ⟨?_, ?_, ?_, ?_⟩
  · intro hname
    refine ⟨"the manifest-path must point to a " ++ PROJECT_MANIFEST ++ " file", ?_⟩
    simp only [Project.load, hc]
    rw [if_pos hname]
  · intro proj hok
    simp only [Project.load, hc] at hok
    by_cases hname : full.getLast? ≠ some PROJECT_MANIFEST
    · rw [if_pos hname] at hok
      exact Except.noConfusion hok
    · push_neg at hname
      rw [if_neg (fun hq => hq hname)] at hok
      have hfne : full ≠ [] := by
        intro hnil
        rw [hnil] at hname
        cases hname
      simp only [pathParent_eq_dropLast full hfne] at hok
      cases hr : env.read_to_string path with
      | error e =>
        simp only [hr] at hok
        exact Except.noConfusion hok
      | ok content =>
        simp only [hr] at hok
        cases hm : env.parse_manifest full.dropLast content with
        | error e =>
          simp only [hm] at hok
          exact Except.noConfusion hok
        | ok manifest =>
          simp only [hm] at hok
          injection hok with h
          subst h
          exact ⟨hname, rfl⟩
  · intro root e hname hp hr
    simp only [Project.load, hc]
    rw [if_neg (fun hq => hq hname)]
    simp only [hp, hr]
  · intro root content e hname hp hr hm
    simp only [Project.load, hc]
    rw [if_neg (fun hq => hq hname)]
    simp only [hp, hr, hm]

/-- Witness for C7: a non-manifest file name is rejected, a read failure and
a parse failure each come back wrapped with the project root. -/
theorem load_checks_witness :
    (∃ e, Project.load exLoadEnvReadFail ["bad.txt"] = Except.error e) ∧
    Project.load exLoadEnvReadFail ["", "proj", "pixi.toml"] =
      Except.error (wrapParseErr ["", "proj"] "permission denied") ∧
    Project.load exLoadEnvParseFail ["", "proj", "pixi.toml"] =
      Except.error (wrapParseErr ["", "proj"] "expected a table") := by
  refine ⟨?_, ?_, ?_⟩
  · exact (load_checks exLoadEnvReadFail ["bad.txt"] ["bad.txt"] rfl).1 (by decide)
  · exact (load_checks exLoadEnvReadFail ["", "proj", "pixi.toml"]
      ["", "proj", "pixi.toml"] rfl).2.2.1 ["", "proj"] "permission denied"
      (by decide) (by decide) rfl
  · exact (load_checks exLoadEnvParseFail ["", "proj", "pixi.toml"]
      ["", "proj", "pixi.toml"] rfl).2.2.2 ["", "proj"] "not a manifest"
      "expected a table" (by decide) (by decide) rfl rfl

/-- C8: on one project instance, `pypi_package_db` constructs the database
at most once across successful calls: once the cell is set, every later
call returns the same shared handle unchanged regardless of its
construction closure; a construction failure is returned to the caller
without being cached, so the state still holds no database and a later call
runs its closure again. -/
theorem pypi_package_db_once (p : Project) (db : PackageDb)
    (init init2 : Except String PackageDb) (e : String) :
    (p.package_db = some db → p.pypi_package_db init = (Except.ok db, p)) ∧
    (p.package_db = none → init = Except.ok db →
      p.pypi_package_db init = (Except.ok db, { p with package_db := some db }) ∧
      ({ p with package_db := some db } : Project).pypi_package_db init2 =
        (Except.ok db, { p with package_db := some db })) ∧
    (p.package_db = none → init = Except.error e →
      p.pypi_package_db init = (Except.error e, p) ∧
      (init2 = Except.ok db →
        (p.pypi_package_db init).2.pypi_package_db init2 =
          (Except.ok db, { p with package_db := some db }))) := by
  refine ⟨?_, ?_, ?_⟩
  · intro h
    simp [Project.pypi_package_db, h]
  · intro h hi
    subst hi
    constructor
    · simp [Project.pypi_package_db, h]
    · simp [Project.pypi_package_db]
  · intro h hi
    subst hi
    have hA : p.pypi_package_db (Except.error e) = (Except.error e, p) := by
      simp [Project.pypi_package_db, h]
    refine ⟨hA, ?_⟩
    intro hi2
    subst hi2
    rw [hA]
    simp [Project.pypi_package_db, h]

/-- Witness for C8: on the example project with an empty cell, a successful
closure fills the cell and is returned; a failing closure surfaces the
error and leaves the cell empty. -/
theorem pypi_package_db_once_witness :
    exProject.pypi_package_db (Except.ok (7 : PackageDb)) =
        (Except.ok (7 : PackageDb), { exProject with package_db := some (7 : PackageDb) }) ∧
    exProject.pypi_package_db (Except.error "no cache dir") =
        (Except.error "no cache dir", exProject) :=
  ⟨((pypi_package_db_once exProject 7 (Except.ok 7) (Except.ok 7) "e").2.1 rfl rfl).1,
    ((pypi_package_db_once exProject 7 (Except.error "no cache dir")
      (Except.ok 7) "no cache dir").2.2 rfl rfl).1⟩

/-- Witness for C4: the example default target declares scripts `[A, B]` and
the linux override declares `[C]`; the result for `linux-64` contains only
the path resolved from `C`, never those from `A` or `B`. -/
theorem activation_scripts_no_merge_witness :
    exProject.activation_scripts exFsEnv Platform.Linux64 =
      Except.ok [["", "proj", "linux.sh"]] := by
  have h := activation_scripts_no_merge exFsEnv exProject Platform.Linux64
    exLinuxTarget ⟨some ["linux.sh"]⟩ rfl rfl
  simpa using h

end Pixi
